import Mathlib

/-!
Verification of the core of the `fullstack-excercise` repository:
the streaming XML flattener (`apps/server/src/parse.ts`), the cursor codec
(`apps/server/src/pagination.ts`), and the paginated children / search
endpoints of the express server (`apps/server/src/main.ts` and its final
iteration, which imports `pagination.ts`).

Conventions of the embedding:
* JavaScript strings are modelled by `String`; `String.toLowerCase`
  and SQLite `LOWER` are both modelled by `toLowerCase` below (exact on
  ASCII data).
* The md5 digest inside `generateHash` is an external crypto primitive;
  it is modelled by the composite key `wnid ++ "::" ++ path` that the
  source feeds to the digest (the digest's role per the spec is a
  deterministic, collision-free function of that key).
* The SQLite node table is modelled by a `List` of rows; `ORDER BY` is
  insertion sort by the same composite key the SQL uses.
* Fallible steps (a close event on an empty stack, an invalid cursor)
  return `Option` / `Except`.
-/

namespace TreeServer

/-- Model of JavaScript `String.prototype.toLowerCase` and SQLite `LOWER`
(character-wise lowercasing; exact on ASCII). -/
def toLowerCase (s : String) : String :=
  String.mk (s.data.map Char.toLower)

/-- Model of JavaScript `String.prototype.trim`: strip leading and trailing
whitespace. -/
def jsTrim (s : String) : String :=
  String.mk ((s.data.dropWhile Char.isWhitespace).reverse.dropWhile Char.isWhitespace |>.reverse)

/-! ## The streaming flattener (`apps/server/src/parse.ts`) -/

/-- One flat record emitted by `parseXml` (interface `OutputEntry` in
`parse.ts`): `{hash, parentHash, name, size}`. -/
structure OutputEntry where
  hash : String
  parentHash : Option String
  name : String
  size : Nat
deriving DecidableEq, Repr

/-- One frame of the explicit ancestor stack (interface `StackFrame`):
`{wnid, words, childCount}`. -/
structure StackFrame where
  wnid : String
  words : String
  childCount : Nat
deriving DecidableEq, Repr

/-- Model of `generateHash(wnid, path)`: the source computes
`md5(wnid ++ "::" ++ path)`; the digest is modelled by its input key. -/
def generateHash (wnid : String) (path : String) : String :=
  wnid ++ "::" ++ path

/-- One event of the SAX stream that `parseXml` subscribes to, restricted to
`synset` elements (all other tag names are ignored by the handlers).
An open tag carries the two required attributes `wnid` and `words`. -/
inductive SaxEvent where
  | openTag (wnid words : String)
  | closeTag
deriving DecidableEq, Repr

/-- Parser state: the ancestor stack (top of stack at the head of the list;
the JS array keeps the top at the end) together with the accumulated
`entries` output array. -/
abbrev PState := List StackFrame × List OutputEntry

/-- Path string built by `[...stack.map((s) => s.words), current.words].join(' > ')`. -/
def joinPath (l : List String) : String :=
  String.intercalate " > " l

/-- Words of the still-open ancestor frames in root-to-leaf order
(`stack.map((s) => s.words)` in the source, whose array is bottom-to-top). -/
def stackWords (stack : List StackFrame) : List String :=
  (stack.map (·.words)).reverse

/-- The `opentag` handler: push `{wnid, words, childCount: 0}`; if a parent
frame exists below the new top, increment its `childCount` by one. -/
def openStep (wnid words : String) (stack : List StackFrame) : List StackFrame :=
  match stack with
  | [] => [⟨wnid, words, 0⟩]
  | p :: rest => ⟨wnid, words, 0⟩ :: { p with childCount := p.childCount + 1 } :: rest

/-- The `closetag` handler: pop the top frame, build the full path from the
remaining stack plus the popped frame's own `words`, emit the record, and
propagate the popped frame's accumulated `childCount` into the new top
frame.  A close event on an empty stack is the malformed-input case (the
JS code would crash on `stack.pop()` being `undefined`): `none`. -/
def closeStep (st : PState) : Option PState :=
  match st with
  | ([], _) => none
  | (current :: stack, entries) =>
    let path := joinPath (stackWords stack ++ [current.words])
    let hash := generateHash current.wnid path
    let parentHash : Option String :=
      match stack with
      | [] => none
      | parent :: _ => some (generateHash parent.wnid (joinPath (stackWords stack)))
    let entry : OutputEntry := ⟨hash, parentHash, path, current.childCount⟩
    let stack' :=
      match stack with
      | [] => []
      | parent :: rest => { parent with childCount := parent.childCount + current.childCount } :: rest
    some (stack', entries ++ [entry])

/-- One SAX event applied to the parser state. -/
def stepEv (st : PState) : SaxEvent → Option PState
  | .openTag wnid words => some (openStep wnid words st.1, st.2)
  | .closeTag => closeStep st

/-- Run the event stream from a given state. -/
def runEvents : List SaxEvent → PState → Option PState
  | [], st => some st
  | e :: es, st =>
    match stepEv st e with
    | none => none
    | some st' => runEvents es st'

/-- Model of `parseXml` on an event stream: run all events from the empty
state; on stream end the stack must be empty (unbalanced input is a fatal
parse error), and the accumulated entries are resolved. -/
def parseXml (events : List SaxEvent) : Option (List OutputEntry) :=
  match runEvents events ([], []) with
  | some ([], entries) => some entries
  | _ => none

/-- A balanced element stream is the depth-first event stream of a tree of
`synset` elements; each node carries the `wnid` and `words` attributes. -/
inductive XmlTree where
  | node (wnid words : String) (children : List XmlTree)
deriving Repr

mutual

/-- Depth-first open/close event stream of a tree. -/
def XmlTree.events : XmlTree → List SaxEvent
  | .node wnid words children => .openTag wnid words :: eventsF children ++ [.closeTag]

/-- Event stream of a forest (the children of a node, in order). -/
def eventsF : List XmlTree → List SaxEvent
  | [] => []
  | t :: ts => t.events ++ eventsF ts

end

mutual

/-- Number of nodes of a tree (the node itself plus all descendants). -/
def XmlTree.numNodes : XmlTree → Nat
  | .node _ _ children => 1 + numNodesF children

/-- Number of nodes of a forest. -/
def numNodesF : List XmlTree → Nat
  | [] => 0
  | t :: ts => t.numNodes + numNodesF ts

end

/-! ### Expected output of the flattener, defined structurally on the tree -/

/-- Ancestor context of a node: the `(wnid, words)` pairs of the open
frames, nearest ancestor first (mirroring the stack orientation). -/
def frameAnc (stack : List StackFrame) : List (String × String) :=
  stack.map (fun f => (f.wnid, f.words))

/-- Root-to-leaf list of `words` of an ancestor context. -/
def ancPathWords (anc : List (String × String)) : List String :=
  (anc.map (·.2)).reverse

/-- Hash of the parent described by an ancestor context (`none` at the root). -/
def parentHashA : List (String × String) → Option String
  | [] => none
  | anc@((w, _) :: _) => some (generateHash w (joinPath (ancPathWords anc)))

mutual

/-- Structural description of the records the flattener emits for one tree
under an ancestor context: post-order, each record carrying the full
root-to-node path as its `name` and the number of proper descendants
(`numNodesF children`) as its `size`. -/
def flattenPost (anc : List (String × String)) : XmlTree → List OutputEntry
  | .node w s c =>
    flattenPostF ((w, s) :: anc) c ++
      [⟨generateHash w (joinPath (ancPathWords ((w, s) :: anc))),
        parentHashA anc,
        joinPath (ancPathWords ((w, s) :: anc)),
        numNodesF c⟩]

/-- Records emitted for a forest (children in order). -/
def flattenPostF (anc : List (String × String)) : List XmlTree → List OutputEntry
  | [] => []
  | t :: ts => flattenPost anc t ++ flattenPostF anc ts

end

/-- Increment the `childCount` of the top stack frame (no-op on an empty
stack) — the shape of both the open-time `+1` and the close-time
propagation in the source. -/
def bumpHead (k : Nat) : List StackFrame → List StackFrame
  | [] => []
  | f :: r => { f with childCount := f.childCount + k } :: r

/-- Hash of the parent according to a stack (the shape computed at close
time from the still-open frames). -/
def parentHashS : List StackFrame → Option String
  | [] => none
  | S@(p :: _) => some (generateHash p.wnid (joinPath (stackWords S)))

theorem openStep_eq (w s : String) (S : List StackFrame) :
    openStep w s S = ⟨w, s, 0⟩ :: bumpHead 1 S := by
  cases S <;> rfl

theorem bumpHead_zero (S : List StackFrame) : bumpHead 0 S = S := by
  cases S <;> simp [bumpHead]

theorem bumpHead_bumpHead (a b : Nat) (S : List StackFrame) :
    bumpHead a (bumpHead b S) = bumpHead (b + a) S := by
  cases S <;> simp [bumpHead, Nat.add_assoc]

theorem stackWords_bumpHead (k : Nat) (S : List StackFrame) :
    stackWords (bumpHead k S) = stackWords S := by
  cases S <;> simp [bumpHead, stackWords]

theorem frameAnc_bumpHead (k : Nat) (S : List StackFrame) :
    frameAnc (bumpHead k S) = frameAnc S := by
  cases S <;> simp [bumpHead, frameAnc]

theorem parentHashS_bumpHead (k : Nat) (S : List StackFrame) :
    parentHashS (bumpHead k S) = parentHashS S := by
  cases S with
  | nil => rfl
  | cons p r => simp [bumpHead, parentHashS, stackWords]

theorem stackWords_eq_ancPathWords (S : List StackFrame) :
    stackWords S = ancPathWords (frameAnc S) := by
  simp [stackWords, ancPathWords, frameAnc, List.map_map]

theorem frameAnc_cons (f : StackFrame) (r : List StackFrame) :
    frameAnc (f :: r) = (f.wnid, f.words) :: frameAnc r := rfl

theorem ancPathWords_cons (w s : String) (anc : List (String × String)) :
    ancPathWords ((w, s) :: anc) = ancPathWords anc ++ [s] := by
  simp [ancPathWords]

theorem parentHashS_eq_parentHashA (S : List StackFrame) :
    parentHashS S = parentHashA (frameAnc S) := by
  cases S with
  | nil => rfl
  | cons p r =>
    simp only [parentHashS, frameAnc_cons, parentHashA, stackWords_eq_ancPathWords]

theorem closeStep_cons (w s : String) (cnt : Nat) (S : List StackFrame)
    (E : List OutputEntry) :
    closeStep (⟨w, s, cnt⟩ :: S, E) =
      some (bumpHead cnt S,
        E ++ [⟨generateHash w (joinPath (stackWords S ++ [s])), parentHashS S,
              joinPath (stackWords S ++ [s]), cnt⟩]) := by
  cases S <;> rfl

theorem runEvents_cons (e : SaxEvent) (es : List SaxEvent) (st : PState) :
    runEvents (e :: es) st = (stepEv st e).bind (runEvents es) := by
  cases h : stepEv st e <;> simp [runEvents, h]

/-- Central lemma: running the event stream of a forest from any state
appends exactly the structurally-described records and bumps the top
frame's `childCount` by the total node count of the forest. -/
theorem runEvents_eventsF :
    ∀ (n : Nat) (ts : List XmlTree), numNodesF ts ≤ n →
    ∀ (rest : List SaxEvent) (S : List StackFrame) (E : List OutputEntry),
    runEvents (eventsF ts ++ rest) (S, E) =
      runEvents rest (bumpHead (numNodesF ts) S, E ++ flattenPostF (frameAnc S) ts) := by
  intro n
  induction n with
  | zero =>
    intro ts h rest S E
    cases ts with
    | nil => simp [eventsF, numNodesF, flattenPostF, bumpHead_zero]
    | cons t ts =>
      cases t with
      | node w s c => simp [numNodesF, XmlTree.numNodes] at h
  | succ n ih =>
    intro ts h rest S E
    cases ts with
    | nil => simp [eventsF, numNodesF, flattenPostF, bumpHead_zero]
    | cons t ts =>
      cases t with
      | node w s c =>
        have hc : numNodesF c ≤ n := by
          simp [numNodesF, XmlTree.numNodes] at h; omega
        have hts : numNodesF ts ≤ n := by
          simp [numNodesF, XmlTree.numNodes] at h; omega
        simp only [eventsF, XmlTree.events, List.append_assoc, List.cons_append]
        rw [runEvents_cons]
        simp only [stepEv, openStep_eq, Option.bind_some, Option.some_bind]
        rw [ih c hc _ _ _]
        rw [show bumpHead (numNodesF c) ((⟨w, s, 0⟩ : StackFrame) :: bumpHead 1 S) =
              (⟨w, s, numNodesF c⟩ : StackFrame) :: bumpHead 1 S by
            simp [bumpHead]]
        rw [runEvents_cons]
        simp only [stepEv]
        rw [closeStep_cons]
        simp only [Option.some_bind, List.nil_append]
        rw [ih ts hts _ _ _]
        rw [bumpHead_bumpHead, bumpHead_bumpHead]
        simp only [frameAnc_cons, frameAnc_bumpHead, stackWords_bumpHead,
          parentHashS_bumpHead, parentHashS_eq_parentHashA,
          stackWords_eq_ancPathWords]
        have hnum : 1 + (numNodesF c + numNodesF ts) =
            numNodesF (XmlTree.node w s c :: ts) := by
          simp [numNodesF, XmlTree.numNodes, Nat.add_assoc]
        rw [hnum]
        have hflat : E ++ flattenPostF ((w, s) :: frameAnc S) c ++
            [⟨generateHash w (joinPath (ancPathWords (frameAnc S) ++ [s])),
              parentHashA (frameAnc S),
              joinPath (ancPathWords (frameAnc S) ++ [s]), numNodesF c⟩] ++
            flattenPostF (frameAnc S) ts =
            E ++ flattenPostF (frameAnc S) (XmlTree.node w s c :: ts) := by
          simp only [flattenPostF, flattenPost, ancPathWords_cons, List.append_assoc]
        rw [hflat]

/-- Running the event stream of a single tree from the empty state yields the
structurally-described flat records and an empty final stack. -/
theorem runEvents_events (t : XmlTree) :
    runEvents t.events ([], []) = some ([], flattenPost [] t) := by
  have h := runEvents_eventsF (numNodesF [t]) [t] le_rfl [] [] []
  simp only [eventsF, List.append_nil, List.append_assoc, List.nil_append] at h
  rw [h]
  simp [runEvents, bumpHead, flattenPostF, frameAnc]

/-- parseXml on the event stream of a tree succeeds with the post-order
flattening. -/
theorem parseXml_events (t : XmlTree) :
    parseXml t.events = some (flattenPost [] t) := by
  simp [parseXml, runEvents_events]

mutual

/-- Post-order list of all subtrees of a tree (each node paired with its
whole subtree), in the order the flattener closes the nodes. -/
def XmlTree.subtreesPost : XmlTree → List XmlTree
  | .node w s c => subtreesPostF c ++ [.node w s c]

/-- Post-order subtrees of a forest. -/
def subtreesPostF : List XmlTree → List XmlTree
  | [] => []
  | t :: ts => t.subtreesPost ++ subtreesPostF ts

end

theorem flattenPostF_map_size :
    ∀ (n : Nat) (ts : List XmlTree), numNodesF ts ≤ n → ∀ (anc : List (String × String)),
    (flattenPostF anc ts).map OutputEntry.size =
      (subtreesPostF ts).map (fun st => st.numNodes - 1) := by
  intro n
  induction n with
  | zero =>
    intro ts h anc
    cases ts with
    | nil => simp [flattenPostF, subtreesPostF]
    | cons t ts => cases t with
      | node w s c => simp [numNodesF, XmlTree.numNodes] at h
  | succ n ih =>
    intro ts h anc
    cases ts with
    | nil => simp [flattenPostF, subtreesPostF]
    | cons t ts =>
      cases t with
      | node w s c =>
        have hc : numNodesF c ≤ n := by
          simp [numNodesF, XmlTree.numNodes] at h; omega
        have hts : numNodesF ts ≤ n := by
          simp [numNodesF, XmlTree.numNodes] at h; omega
        simp only [flattenPostF, flattenPost, subtreesPostF, XmlTree.subtreesPost,
          List.map_append, List.append_assoc]
        rw [ih c hc, ih ts hts]
        simp [XmlTree.numNodes]

/-- Claim C1: every record emitted by the streaming flattener carries as its
`size` field the total number of nodes in the subtree rooted at that node,
excluding the node itself (0 for leaves).  The emitted records are in
post-order, aligned positionally with the post-order list of subtrees. -/
theorem C1_descendant_count (t : XmlTree) :
    (parseXml t.events).map (List.map OutputEntry.size) =
      some ((t.subtreesPost).map (fun st => st.numNodes - 1)) := by
  rw [parseXml_events]
  have h := flattenPostF_map_size (numNodesF [t]) [t] le_rfl []
  simp only [flattenPostF, subtreesPostF, List.append_nil] at h
  simp [h]

mutual

/-- Post-order list of the full root-to-node path strings of a tree, under a
prefix of ancestor segment names. -/
def fullPathsT (anc : List String) : XmlTree → List String
  | .node _ s c => fullPathsF (anc ++ [s]) c ++ [joinPath (anc ++ [s])]

/-- Full path strings of a forest. -/
def fullPathsF (anc : List String) : List XmlTree → List String
  | [] => []
  | t :: ts => fullPathsT anc t ++ fullPathsF anc ts

end

theorem flattenPostF_map_name :
    ∀ (n : Nat) (ts : List XmlTree), numNodesF ts ≤ n → ∀ (anc : List (String × String)),
    (flattenPostF anc ts).map OutputEntry.name = fullPathsF (ancPathWords anc) ts := by
  intro n
  induction n with
  | zero =>
    intro ts h anc
    cases ts with
    | nil => simp [flattenPostF, fullPathsF]
    | cons t ts => cases t with
      | node w s c => simp [numNodesF, XmlTree.numNodes] at h
  | succ n ih =>
    intro ts h anc
    cases ts with
    | nil => simp [flattenPostF, fullPathsF]
    | cons t ts =>
      cases t with
      | node w s c =>
        have hc : numNodesF c ≤ n := by
          simp [numNodesF, XmlTree.numNodes] at h; omega
        have hts : numNodesF ts ≤ n := by
          simp [numNodesF, XmlTree.numNodes] at h; omega
        simp only [flattenPostF, flattenPost, fullPathsF, fullPathsT,
          List.map_append, List.append_assoc]
        rw [ih c hc, ih ts hts]
        simp [ancPathWords_cons]

/-- Every record of `flattenPost` emitted under the empty context ends with a
nonempty list (the node's own record closes the block). -/
theorem flattenPost_ne_nil (anc : List (String × String)) (t : XmlTree) :
    flattenPost anc t ≠ [] := by
  cases t with
  | node w s c => simp [flattenPost]

/-- Claim C6 (amended): the `name` field of every emitted record is the full
root-to-node path (ancestor `words` joined with " > ", ending in the node's
own segment), aligned positionally with the post-order node list. -/
theorem C6_name_is_full_path (t : XmlTree) :
    (parseXml t.events).map (List.map OutputEntry.name) = some (fullPathsT [] t) := by
  rw [parseXml_events]
  have h := flattenPostF_map_name (numNodesF [t]) [t] le_rfl []
  simp only [flattenPostF, fullPathsF, List.append_nil, ancPathWords] at h
  simp [h]

/-- Claim C6, counterexample to the claim as stated: for the stream
`<synset wnid="w0" words="Root"><synset wnid="w1" words="Alpha"/></synset>`
the record emitted for the inner node has `name = "Root > Alpha"` (the full
path), not `"Alpha"` (the node's own segment alone). -/
theorem C6_counterexample :
    (parseXml (XmlTree.node "w0" "Root" [XmlTree.node "w1" "Alpha" []]).events).map
        (List.map OutputEntry.name) = some ["Root > Alpha", "Root"] ∧
      ("Root > Alpha" : String) ≠ "Alpha" := by
  constructor
  · rfl
  · decide

/-! ### Post-order structure of the output (claim C10) -/

theorem append_split_cons {α : Type} (xs ys l r : List α) (e : α)
    (h : xs ++ ys = l ++ e :: r) :
    (∃ l1 r1, xs = l1 ++ e :: r1 ∧ r = r1 ++ ys) ∨
    (∃ l2 r2, ys = l2 ++ e :: r2 ∧ r = r2 ∧ l = xs ++ l2) := by
  induction xs generalizing l with
  | nil =>
    right
    exact ⟨l, r, by simpa using h, rfl, by simp⟩
  | cons x xs ih =>
    cases l with
    | nil =>
      simp only [List.cons_append, List.nil_append, List.cons.injEq] at h
      obtain ⟨hx, hr⟩ := h
      left
      exact ⟨[], xs, by simp [hx], hr.symm⟩
    | cons y l' =>
      simp only [List.cons_append, List.cons.injEq] at h
      obtain ⟨hxy, h'⟩ := h
      rcases ih l' h' with ⟨l1, r1, hxs, hr⟩ | ⟨l2, r2, hys, hr, hl⟩
      · left
        exact ⟨x :: l1, r1, by simp [hxs], hr⟩
      · right
        exact ⟨l2, r2, hys, hr, by simp [hxy, hl]⟩

/-- Property of a forest's flattening: every record either points (via
`parentHash`) at a record appearing strictly later in the list, or carries
the parent hash of the surrounding context. -/
def ParentLaterF (ts : List XmlTree) : Prop :=
  ∀ (anc : List (String × String)) (l r : List OutputEntry) (e : OutputEntry),
    flattenPostF anc ts = l ++ e :: r →
    (∃ e' ∈ r, some e'.hash = e.parentHash) ∨ e.parentHash = parentHashA anc

/-- Property of a tree's flattening: the last record is the root's and
carries the context's parent hash; every other record points at a record
strictly later in the list. -/
def ParentLaterT (t : XmlTree) : Prop :=
  ∀ (anc : List (String × String)) (l r : List OutputEntry) (e : OutputEntry),
    flattenPost anc t = l ++ e :: r →
    (r = [] ∧ e.parentHash = parentHashA anc) ∨
      (∃ e' ∈ r, some e'.hash = e.parentHash)

theorem numNodes_pos (t : XmlTree) : 1 ≤ t.numNodes := by
  cases t with
  | node w s c => simp [XmlTree.numNodes]

theorem parent_later :
    ∀ n : Nat,
      (∀ ts, numNodesF ts ≤ n → ParentLaterF ts) ∧
      (∀ t, t.numNodes ≤ n → ParentLaterT t) := by
  intro n
  induction n with
  | zero =>
    constructor
    · intro ts h
      cases ts with
      | nil =>
        intro anc l r e hsplit
        simp [flattenPostF] at hsplit
      | cons t ts =>
        exfalso
        have := numNodes_pos t
        simp [numNodesF] at h
        omega
    · intro t h
      exact absurd h (by have := numNodes_pos t; omega)
  | succ n ih =>
    have hPT : ∀ t, t.numNodes ≤ n + 1 → ParentLaterT t := by
      intro t ht
      cases t with
      | node w s c =>
        intro anc l r e hsplit
        have hc : numNodesF c ≤ n := by
          simp [XmlTree.numNodes] at ht; omega
        simp only [flattenPost] at hsplit
        rcases append_split_cons _ _ _ _ _ hsplit with
          ⟨l1, r1, hin, hr⟩ | ⟨l2, r2, hys, hr, _⟩
        · right
          rcases (ih.1 c hc) _ _ _ _ hin with ⟨e', he', hh⟩ | hpar
          · exact ⟨e', by rw [hr]; exact List.mem_append_left _ he', hh⟩
          · refine ⟨⟨generateHash w (joinPath (ancPathWords ((w, s) :: anc))),
              parentHashA anc, joinPath (ancPathWords ((w, s) :: anc)), numNodesF c⟩,
              ?_, ?_⟩
            · rw [hr]; exact List.mem_append_right _ (by simp)
            · rw [hpar]; rfl
        · cases l2 with
          | nil =>
            simp only [List.nil_append, List.cons.injEq] at hys
            obtain ⟨he, hr2⟩ := hys
            left
            constructor
            · rw [hr, ← hr2]
            · rw [← he]
          | cons z l2' =>
            exfalso
            simp only [List.cons_append, List.cons.injEq] at hys
            obtain ⟨_, hys'⟩ := hys
            have hlen := congrArg List.length hys'
            simp at hlen
            omega
    refine ⟨?_, hPT⟩
    intro ts hts
    cases ts with
    | nil =>
      intro anc l r e hsplit
      simp [flattenPostF] at hsplit
    | cons t ts' =>
      intro anc l r e hsplit
      have ht : t.numNodes ≤ n + 1 := by
        simp [numNodesF] at hts; omega
      have hts' : numNodesF ts' ≤ n := by
        have := numNodes_pos t
        simp [numNodesF] at hts; omega
      simp only [flattenPostF] at hsplit
      rcases append_split_cons _ _ _ _ _ hsplit with
        ⟨l1, r1, hin, hr⟩ | ⟨l2, r2, hys, hr, _⟩
      · rcases hPT t ht _ _ _ _ hin with ⟨hr1, hpar⟩ | ⟨e', he', hh⟩
        · right
          rw [hpar]
        · left
          exact ⟨e', by rw [hr]; exact List.mem_append_left _ he', hh⟩
      · rcases (ih.1 ts' hts') _ _ _ _ hys with ⟨e', he', hh⟩ | hpar
        · left
          exact ⟨e', by rw [hr]; exact he', hh⟩
        · right
          exact hpar

/-- Claim C10: the flattener emits in strict post-order — the output is
nonempty, its last record is the root's (`parentHash = none` exactly
there), and every other record's `parentHash` equals the `hash` of a record
emitted strictly later. -/
theorem C10_postorder_emission (t : XmlTree) (es : List OutputEntry)
    (h : parseXml t.events = some es) :
    es ≠ [] ∧
      ∀ (l r : List OutputEntry) (e : OutputEntry), es = l ++ e :: r →
        (r = [] ∧ e.parentHash = none) ∨ (∃ e' ∈ r, some e'.hash = e.parentHash) := by
  rw [parseXml_events] at h
  have hes : es = flattenPost [] t := by
    injection h with h'
    exact h'.symm
  subst hes
  refine ⟨flattenPost_ne_nil [] t, ?_⟩
  intro l r e hsplit
  rcases (parent_later t.numNodes).2 t le_rfl [] l r e hsplit with ⟨hr, hpar⟩ | hlater
  · left
    exact ⟨hr, by simpa [parentHashA] using hpar⟩
  · right
    exact hlater

/-- Witness for C10 at the two-node stream used throughout: the theorem's
hypothesis is discharged by computation. -/
theorem C10_postorder_emission_witness :
    ([⟨"w1::Root > Alpha", some "w0::Root", "Root > Alpha", 0⟩,
      ⟨"w0::Root", none, "Root", 1⟩] : List OutputEntry) ≠ [] ∧
      ∀ (l r : List OutputEntry) (e : OutputEntry),
        ([⟨"w1::Root > Alpha", some "w0::Root", "Root > Alpha", 0⟩,
          ⟨"w0::Root", none, "Root", 1⟩] : List OutputEntry) = l ++ e :: r →
        (r = [] ∧ e.parentHash = none) ∨ (∃ e' ∈ r, some e'.hash = e.parentHash) :=
  C10_postorder_emission (XmlTree.node "w0" "Root" [XmlTree.node "w1" "Alpha" []]) _ rfl

/-! ## The cursor codec (`apps/server/src/pagination.ts`)

The codec pipeline in the source is
`JSON.stringify → Buffer.from(·, 'utf-8') → base64 → URL-safe substitution`
for encoding, and the lenient inverse (Node's `Buffer.from(·, 'base64')`
skips characters outside the base64 alphabet) followed by `JSON.parse`
for decoding, with any decoding exception caught and turned into `null`.
Each layer is modelled concretely below. -/

/-- UTF-8 encoding of one unicode scalar value (byte encoding performed by
`Buffer.from(jsonString, 'utf-8')`). -/
def utf8EncodeChar (c : Char) : List Nat :=
  if c.toNat < 0x80 then [c.toNat]
  else if c.toNat < 0x800 then [0xC0 + c.toNat / 64, 0x80 + c.toNat % 64]
  else if c.toNat < 0x10000 then
    [0xE0 + c.toNat / 4096, 0x80 + c.toNat / 64 % 64, 0x80 + c.toNat % 64]
  else
    [0xF0 + c.toNat / 262144, 0x80 + c.toNat / 4096 % 64,
      0x80 + c.toNat / 64 % 64, 0x80 + c.toNat % 64]

/-- UTF-8 encoding of a character list. -/
def utf8Encode (s : List Char) : List Nat :=
  (s.map utf8EncodeChar).flatten

/-- Read one UTF-8 encoded scalar from the front of a byte list. -/
def utf8DecodeChar : List Nat → Option (Char × List Nat)
  | [] => none
  | b :: bs =>
    if b < 0x80 then some (Char.ofNat b, bs)
    else if b < 0xC0 then none
    else if b < 0xE0 then
      match bs with
      | b1 :: bs1 =>
        if 0x80 ≤ b1 ∧ b1 < 0xC0 then
          some (Char.ofNat ((b - 0xC0) * 64 + (b1 - 0x80)), bs1)
        else none
      | [] => none
    else if b < 0xF0 then
      match bs with
      | b1 :: b2 :: bs2 =>
        if (0x80 ≤ b1 ∧ b1 < 0xC0) ∧ (0x80 ≤ b2 ∧ b2 < 0xC0) then
          some (Char.ofNat ((b - 0xE0) * 4096 + (b1 - 0x80) * 64 + (b2 - 0x80)), bs2)
        else none
      | _ => none
    else if b < 0xF8 then
      match bs with
      | b1 :: b2 :: b3 :: bs3 =>
        if (0x80 ≤ b1 ∧ b1 < 0xC0) ∧ (0x80 ≤ b2 ∧ b2 < 0xC0) ∧ (0x80 ≤ b3 ∧ b3 < 0xC0) then
          some (Char.ofNat
            ((b - 0xF0) * 262144 + (b1 - 0x80) * 4096 + (b2 - 0x80) * 64 + (b3 - 0x80)), bs3)
        else none
      | _ => none
    else none

/-- Strict UTF-8 decoding, by fuel (one unit per decoded character; the
byte count is always enough fuel since every character consumes at least
one byte).  Used only to invert `utf8Encode`; the leniency of Node's
`toString('utf-8')` on invalid sequences is irrelevant because a failed
decode and a decode to garbage both make the subsequent JSON parse fail,
which the source maps to `null`. -/
def utf8DecodeFuel : Nat → List Nat → Option (List Char)
  | 0, l => if l.isEmpty then some [] else none
  | fuel + 1, l =>
    match utf8DecodeChar l with
    | none => if l.isEmpty then some [] else none
    | some (c, rest) => (utf8DecodeFuel fuel rest).map (fun cs => c :: cs)

/-- UTF-8 decoding of a byte list. -/
def utf8Decode (l : List Nat) : Option (List Char) :=
  utf8DecodeFuel l.length l

theorem char_toNat_lt (c : Char) : c.toNat < 1114112 := by
  have h := c.valid
  have he : c.toNat = c.val.toNat := rfl
  rcases h with h | h
  · omega
  · omega

theorem utf8EncodeChar_lt_256 (c : Char) : ∀ b ∈ utf8EncodeChar c, b < 256 := by
  intro b hb
  have hv := char_toNat_lt c
  simp only [utf8EncodeChar] at hb
  split at hb
  · simp at hb; omega
  · split at hb
    · simp at hb; rcases hb with h | h <;> omega
    · split at hb
      · simp at hb; rcases hb with h | h | h <;> omega
      · simp at hb; rcases hb with h | h | h | h <;> omega

theorem utf8Encode_lt_256 (s : List Char) : ∀ b ∈ utf8Encode s, b < 256 := by
  intro b hb
  simp only [utf8Encode, List.mem_flatten, List.mem_map] at hb
  obtain ⟨l, ⟨c, _, hc⟩, hbl⟩ := hb
  exact utf8EncodeChar_lt_256 c b (hc ▸ hbl)

theorem utf8DecodeChar_encodeChar (c : Char) (bs : List Nat) :
    utf8DecodeChar (utf8EncodeChar c ++ bs) = some (c, bs) := by
  have hv := char_toNat_lt c
  simp only [utf8EncodeChar]
  by_cases h1 : c.toNat < 0x80
  · rw [if_pos h1]
    simp only [List.cons_append, List.nil_append, utf8DecodeChar]
    rw [if_pos h1, Char.ofNat_toNat]
  · by_cases h2 : c.toNat < 0x800
    · rw [if_neg h1, if_pos h2]
      simp only [List.cons_append, List.nil_append, utf8DecodeChar]
      rw [if_neg (by omega), if_neg (by omega), if_pos (by omega),
        if_pos (by constructor <;> omega)]
      have harith : (0xC0 + c.toNat / 64 - 0xC0) * 64 + (0x80 + c.toNat % 64 - 0x80) =
          c.toNat := by omega
      rw [harith, Char.ofNat_toNat]
    · by_cases h3 : c.toNat < 0x10000
      · rw [if_neg h1, if_neg h2, if_pos h3]
        simp only [List.cons_append, List.nil_append, utf8DecodeChar]
        rw [if_neg (by omega), if_neg (by omega), if_neg (by omega), if_pos (by omega),
          if_pos (by refine ⟨⟨?_, ?_⟩, ?_, ?_⟩ <;> omega)]
        have harith : (0xE0 + c.toNat / 4096 - 0xE0) * 4096 +
            (0x80 + c.toNat / 64 % 64 - 0x80) * 64 + (0x80 + c.toNat % 64 - 0x80) =
            c.toNat := by omega
        rw [harith, Char.ofNat_toNat]
      · rw [if_neg h1, if_neg h2, if_neg h3]
        simp only [List.cons_append, List.nil_append, utf8DecodeChar]
        rw [if_neg (by omega), if_neg (by omega), if_neg (by omega), if_neg (by omega),
          if_pos (by omega),
          if_pos (by refine ⟨⟨?_, ?_⟩, ⟨?_, ?_⟩, ?_, ?_⟩ <;> omega)]
        have harith : (0xF0 + c.toNat / 262144 - 0xF0) * 262144 +
            (0x80 + c.toNat / 4096 % 64 - 0x80) * 4096 +
            (0x80 + c.toNat / 64 % 64 - 0x80) * 64 + (0x80 + c.toNat % 64 - 0x80) =
            c.toNat := by omega
        rw [harith, Char.ofNat_toNat]

theorem utf8EncodeChar_ne_nil (c : Char) : utf8EncodeChar c ≠ [] := by
  unfold utf8EncodeChar
  split_ifs <;> simp

theorem utf8DecodeFuel_encode :
    ∀ (s : List Char) (fuel : Nat), (utf8Encode s).length ≤ fuel →
      utf8DecodeFuel fuel (utf8Encode s) = some s := by
  intro s
  induction s with
  | nil =>
    intro fuel hf
    cases fuel with
    | zero => rfl
    | succ f =>
      simp only [utf8DecodeFuel]
      rw [show utf8Encode [] = [] from rfl]
      rw [show utf8DecodeChar [] = none from rfl]
      rfl
  | cons c cs ih =>
    intro fuel hf
    have henc : utf8Encode (c :: cs) = utf8EncodeChar c ++ utf8Encode cs := by
      simp [utf8Encode]
    have hk : 1 ≤ (utf8EncodeChar c).length := by
      cases hec : utf8EncodeChar c with
      | nil => exact absurd hec (utf8EncodeChar_ne_nil c)
      | cons b bs => simp
    rw [henc] at hf ⊢
    rw [List.length_append] at hf
    cases fuel with
    | zero => omega
    | succ f =>
      simp only [utf8DecodeFuel]
      rw [utf8DecodeChar_encodeChar]
      dsimp only
      rw [ih f (by omega)]
      rfl

theorem utf8Decode_encode (s : List Char) : utf8Decode (utf8Encode s) = some s :=
  utf8DecodeFuel_encode s (utf8Encode s).length le_rfl

/-! ### Base64 (Node `Buffer.prototype.toString('base64')` and the lenient
`Buffer.from(·, 'base64')`) -/

/-- Character of the standard base64 alphabet at a sextet index. -/
def sextetChar (i : Nat) : Char :=
  if i < 26 then Char.ofNat (65 + i)
  else if i < 52 then Char.ofNat (97 + (i - 26))
  else if i < 62 then Char.ofNat (48 + (i - 52))
  else if i = 62 then '+'
  else '/'

/-- Inverse of the alphabet: `none` for characters outside it (Node's
base64 decoder skips those). -/
def charSextet (c : Char) : Option Nat :=
  if 'A' ≤ c ∧ c ≤ 'Z' then some (c.toNat - 65)
  else if 'a' ≤ c ∧ c ≤ 'z' then some (c.toNat - 97 + 26)
  else if '0' ≤ c ∧ c ≤ '9' then some (c.toNat - 48 + 52)
  else if c = '+' then some 62
  else if c = '/' then some 63
  else none

theorem charSextet_sextetChar : ∀ i, i < 64 → charSextet (sextetChar i) = some i := by
  decide

/-- Base64 encoding of a byte list, with `=` padding. -/
def b64Encode : List Nat → List Char
  | [] => []
  | [a] => [sextetChar (a / 4), sextetChar (a % 4 * 16), '=', '=']
  | [a, b] => [sextetChar (a / 4), sextetChar (a % 4 * 16 + b / 16), sextetChar (b % 16 * 4), '=']
  | a :: b :: c :: rest =>
    sextetChar (a / 4) :: sextetChar (a % 4 * 16 + b / 16) ::
      sextetChar (b % 16 * 4 + c / 64) :: sextetChar (c % 64) :: b64Encode rest

/-- Reassemble bytes from a sextet list; trailing groups of 3/2/1 sextets
yield 2/1/0 bytes, matching Node's handling of unpadded input. -/
def sextetsToBytes : List Nat → List Nat
  | s1 :: s2 :: s3 :: s4 :: rest =>
    (s1 * 4 + s2 / 16) :: (s2 % 16 * 16 + s3 / 4) :: (s3 % 4 * 64 + s4) :: sextetsToBytes rest
  | [s1, s2, s3] => [s1 * 4 + s2 / 16, s2 % 16 * 16 + s3 / 4]
  | [s1, s2] => [s1 * 4 + s2 / 16]
  | _ => []

/-- Lenient base64 decoding: characters outside the alphabet (including the
padding `=`) are skipped, as Node's `Buffer.from(·, 'base64')` does. -/
def b64DecodeLenient (cs : List Char) : List Nat :=
  sextetsToBytes (cs.filterMap charSextet)

theorem charSextet_eq_none : charSextet '=' = none := by decide

theorem sextetsToBytes_encode :
    ∀ (bs : List Nat), (∀ b ∈ bs, b < 256) →
      sextetsToBytes ((b64Encode bs).filterMap charSextet) = bs
  | [], _ => by simp [b64Encode, sextetsToBytes]
  | [a], h => by
    have ha : a < 256 := h a (by simp)
    have h1 := charSextet_sextetChar (a / 4) (by omega)
    have h2 := charSextet_sextetChar (a % 4 * 16) (by omega)
    simp only [b64Encode, List.filterMap_cons, h1, h2, charSextet_eq_none,
      List.filterMap_nil, sextetsToBytes]
    have : a / 4 * 4 + a % 4 * 16 / 16 = a := by omega
    rw [this]
  | [a, b], h => by
    have ha : a < 256 := h a (by simp)
    have hb : b < 256 := h b (by simp)
    have h1 := charSextet_sextetChar (a / 4) (by omega)
    have h2 := charSextet_sextetChar (a % 4 * 16 + b / 16) (by omega)
    have h3 := charSextet_sextetChar (b % 16 * 4) (by omega)
    simp only [b64Encode, List.filterMap_cons, h1, h2, h3, charSextet_eq_none,
      List.filterMap_nil, sextetsToBytes]
    have e1 : a / 4 * 4 + (a % 4 * 16 + b / 16) / 16 = a := by omega
    have e2 : (a % 4 * 16 + b / 16) % 16 * 16 + b % 16 * 4 / 4 = b := by omega
    rw [e1, e2]
  | a :: b :: c :: rest, h => by
    have ha : a < 256 := h a (by simp)
    have hb : b < 256 := h b (by simp)
    have hc : c < 256 := h c (by simp)
    have hrest : ∀ x ∈ rest, x < 256 := fun x hx => h x (by simp [hx])
    have h1 := charSextet_sextetChar (a / 4) (by omega)
    have h2 := charSextet_sextetChar (a % 4 * 16 + b / 16) (by omega)
    have h3 := charSextet_sextetChar (b % 16 * 4 + c / 64) (by omega)
    have h4 := charSextet_sextetChar (c % 64) (by omega)
    have ih := sextetsToBytes_encode rest hrest
    simp only [b64Encode, List.filterMap_cons, h1, h2, h3, h4, sextetsToBytes]
    rw [ih]
    have e1 : a / 4 * 4 + (a % 4 * 16 + b / 16) / 16 = a := by omega
    have e2 : (a % 4 * 16 + b / 16) % 16 * 16 + (b % 16 * 4 + c / 64) / 4 = b := by omega
    have e3 : (b % 16 * 4 + c / 64) % 4 * 64 + c % 64 = c := by omega
    rw [e1, e2, e3]

/-! ### URL-safe substitution (`toUrlSafeBase64` / `fromUrlSafeBase64` in
`pagination.ts`) -/

/-- Character substitution of `toUrlSafeBase64`: `+` to `-`, `/` to `_`. -/
def urlEncChar (c : Char) : Char :=
  if c = '+' then '-' else if c = '/' then '_' else c

/-- Character substitution of `fromUrlSafeBase64`: `-` to `+`, `_` to `/`. -/
def urlDecChar (c : Char) : Char :=
  if c = '-' then '+' else if c = '_' then '/' else c

/-- Model of `toUrlSafeBase64`: substitute, then strip every `=`. -/
def toUrlSafeBase64 (cs : List Char) : List Char :=
  (cs.map urlEncChar).filter (fun c => !(c == '='))

/-- Model of `fromUrlSafeBase64`: substitute back, then append `=` until the
length is a multiple of four (the source's `while (base64.length % 4)`
loop; the substitution preserves length). -/
def fromUrlSafeBase64 (cs : List Char) : List Char :=
  cs.map urlDecChar ++ List.replicate ((4 - cs.length % 4) % 4) '='

theorem urlRound_sextetChar :
    ∀ i, i < 64 →
      urlDecChar (urlEncChar (sextetChar i)) = sextetChar i ∧
        urlEncChar (sextetChar i) ≠ '=' := by
  decide

theorem filterMap_replicate_eq_nil (k : Nat) :
    (List.replicate k '=').filterMap charSextet = [] := by
  induction k with
  | zero => rfl
  | succ k ih => simp [List.replicate_succ, List.filterMap_cons, charSextet_eq_none, ih]

theorem filterMap_round_aux (cs : List Char)
    (h : ∀ c ∈ cs, (∃ i, i < 64 ∧ c = sextetChar i) ∨ c = '=') :
    (((cs.map urlEncChar).filter (fun c => !(c == '='))).map urlDecChar).filterMap charSextet =
      cs.filterMap charSextet := by
  induction cs with
  | nil => rfl
  | cons c cs ih =>
    have hcs : ∀ c ∈ cs, (∃ i, i < 64 ∧ c = sextetChar i) ∨ c = '=' :=
      fun x hx => h x (by simp [hx])
    rcases h c (by simp) with ⟨i, hi, hci⟩ | hceq
    · subst hci
      have hr := urlRound_sextetChar i hi
      simp only [List.map_cons, List.filter_cons]
      rw [if_pos (by simpa using hr.2)]
      simp only [List.map_cons, hr.1, List.filterMap_cons, charSextet_sextetChar i hi]
      rw [ih hcs]
    · subst hceq
      have he : urlEncChar '=' = '=' := by decide
      simp only [List.map_cons, he, List.filter_cons]
      rw [if_neg (by decide)]
      simp only [List.filterMap_cons, charSextet_eq_none]
      exact ih hcs

/-- On char lists whose members come from the base64 alphabet or are `=`,
the URL-safe round trip preserves the sextet stream. -/
theorem filterMap_urlsafe_round (cs : List Char)
    (h : ∀ c ∈ cs, (∃ i, i < 64 ∧ c = sextetChar i) ∨ c = '=') :
    (fromUrlSafeBase64 (toUrlSafeBase64 cs)).filterMap charSextet =
      cs.filterMap charSextet := by
  simp only [fromUrlSafeBase64, List.filterMap_append, filterMap_replicate_eq_nil,
    List.append_nil, toUrlSafeBase64]
  exact filterMap_round_aux cs h

theorem b64Encode_chars :
    ∀ (bs : List Nat), (∀ b ∈ bs, b < 256) →
      ∀ c ∈ b64Encode bs, (∃ i, i < 64 ∧ c = sextetChar i) ∨ c = '='
  | [], _ => by simp [b64Encode]
  | [a], h => by
    have ha : a < 256 := h a (by simp)
    intro c hcm
    simp only [b64Encode, List.mem_cons, List.not_mem_nil, or_false] at hcm
    rcases hcm with rfl | rfl | rfl | rfl
    · exact Or.inl ⟨a / 4, by omega, rfl⟩
    · exact Or.inl ⟨a % 4 * 16, by omega, rfl⟩
    · exact Or.inr rfl
    · exact Or.inr rfl
  | [a, b], h => by
    have ha : a < 256 := h a (by simp)
    have hb : b < 256 := h b (by simp)
    intro c hcm
    simp only [b64Encode, List.mem_cons, List.not_mem_nil, or_false] at hcm
    rcases hcm with rfl | rfl | rfl | rfl
    · exact Or.inl ⟨a / 4, by omega, rfl⟩
    · exact Or.inl ⟨a % 4 * 16 + b / 16, by omega, rfl⟩
    · exact Or.inl ⟨b % 16 * 4, by omega, rfl⟩
    · exact Or.inr rfl
  | a :: b :: c :: rest, h => by
    have ha : a < 256 := h a (by simp)
    have hb : b < 256 := h b (by simp)
    have hc : c < 256 := h c (by simp)
    have hrest : ∀ x ∈ rest, x < 256 := fun x hx => h x (by simp [hx])
    intro d hdm
    simp only [b64Encode, List.mem_cons] at hdm
    rcases hdm with rfl | rfl | rfl | rfl | hdm
    · exact Or.inl ⟨a / 4, by omega, rfl⟩
    · exact Or.inl ⟨a % 4 * 16 + b / 16, by omega, rfl⟩
    · exact Or.inl ⟨b % 16 * 4 + c / 64, by omega, rfl⟩
    · exact Or.inl ⟨c % 64, by omega, rfl⟩
    · exact b64Encode_chars rest hrest d hdm

/-- Full byte-level round trip of the base64 and URL-safe layers. -/
theorem b64_urlsafe_roundtrip (bs : List Nat) (h : ∀ b ∈ bs, b < 256) :
    b64DecodeLenient (fromUrlSafeBase64 (toUrlSafeBase64 (b64Encode bs))) = bs := by
  unfold b64DecodeLenient
  rw [filterMap_urlsafe_round _ (b64Encode_chars bs h)]
  exact sextetsToBytes_encode bs h

/-! ### JSON layer (`JSON.stringify` / `JSON.parse` restricted to the
cursor object shape `{"name": string, "hash": string}`).

`JSON.stringify` escapes `"` and `\` with a backslash, the five control
characters BS/TAB/LF/FF/CR with their short escapes, and the remaining
control characters below U+0020 as `\u00xx`; all other characters appear
verbatim.  The parser below accepts exactly the serialization shape the
stringifier produces (plus all standard string escapes); on any other
byte stream it fails, which models the `JSON.parse` exception that
`decodeCursor` catches and maps to `null`. -/

/-- Lower-case hexadecimal digit, as emitted by `JSON.stringify`. -/
def hexDigitChar (n : Nat) : Char :=
  if n < 10 then Char.ofNat (48 + n) else Char.ofNat (87 + n)

/-- Value of a hexadecimal digit character. -/
def hexVal (c : Char) : Option Nat :=
  if '0' ≤ c ∧ c ≤ '9' then some (c.toNat - 48)
  else if 'a' ≤ c ∧ c ≤ 'f' then some (c.toNat - 87)
  else if 'A' ≤ c ∧ c ≤ 'F' then some (c.toNat - 55)
  else none

theorem hexVal_hexDigitChar : ∀ n, n < 16 → hexVal (hexDigitChar n) = some n := by
  decide

/-- Escape of one character inside a JSON string literal. -/
def jsonEscapeChar (c : Char) : List Char :=
  if c = '"' then ['\\', '"']
  else if c = '\\' then ['\\', '\\']
  else if c = Char.ofNat 8 then ['\\', 'b']
  else if c = Char.ofNat 9 then ['\\', 't']
  else if c = Char.ofNat 10 then ['\\', 'n']
  else if c = Char.ofNat 12 then ['\\', 'f']
  else if c = Char.ofNat 13 then ['\\', 'r']
  else if c.toNat < 32 then
    ['\\', 'u', '0', '0', hexDigitChar (c.toNat / 16), hexDigitChar (c.toNat % 16)]
  else [c]

/-- Escape of a whole string body. -/
def jsonEscape (s : List Char) : List Char :=
  (s.map jsonEscapeChar).flatten

/-- Unescape of a single-character escape (the character after `\\`). -/
def escUnmap (d : Char) : Option Char :=
  if d = '"' then some '"'
  else if d = '\\' then some '\\'
  else if d = '/' then some '/'
  else if d = 'b' then some (Char.ofNat 8)
  else if d = 't' then some (Char.ofNat 9)
  else if d = 'n' then some (Char.ofNat 10)
  else if d = 'f' then some (Char.ofNat 12)
  else if d = 'r' then some (Char.ofNat 13)
  else none

/-- Lex one string escape (the input starts right after a backslash):
either a single-character escape or a `\\uXXXX` sequence. -/
def lexEscape : List Char → Option (Char × List Char)
  | [] => none
  | d :: rest1 =>
    match escUnmap d with
    | some u => some (u, rest1)
    | none =>
      if d = 'u' then
        match rest1 with
        | h1 :: h2 :: h3 :: h4 :: rest2 =>
          match hexVal h1, hexVal h2, hexVal h3, hexVal h4 with
          | some v1, some v2, some v3, some v4 =>
            some (Char.ofNat (v1 * 4096 + v2 * 256 + v3 * 16 + v4), rest2)
          | _, _, _, _ => none
        | _ => none
      else none

/-- Parse a JSON string body up to and including the closing quote, by fuel
(one unit per consumed group of characters; the input length is always
enough fuel).  Returns the decoded body and the remaining input. -/
def parseJsonStringFuel : Nat → List Char → Option (List Char × List Char)
  | 0, _ => none
  | fuel + 1, l =>
    match l with
    | [] => none
    | c :: rest =>
      if c = '"' then some ([], rest)
      else if c = '\\' then
        match lexEscape rest with
        | none => none
        | some (u, rest1) => (parseJsonStringFuel fuel rest1).map (fun p => (u :: p.1, p.2))
      else if c.toNat < 32 then none
      else (parseJsonStringFuel fuel rest).map (fun p => (c :: p.1, p.2))

/-- Parse a JSON string body up to and including the closing quote. -/
def parseJsonString (l : List Char) : Option (List Char × List Char) :=
  parseJsonStringFuel l.length l

/-- Expect a literal token at the front of the input. -/
def stripToken : List Char → List Char → Option (List Char)
  | [], rest => some rest
  | _ :: _, [] => none
  | t :: ts, c :: cs => if c = t then stripToken ts cs else none

/-- Literal characters of `{"name":"`. -/
def nameKey : List Char := ['\x7b', '"', 'n', 'a', 'm', 'e', '"', ':', '"']

/-- Literal characters of `","hash":"`. -/
def hashKey : List Char := ['"', ',', '"', 'h', 'a', 's', 'h', '"', ':', '"']

/-- Model of `JSON.stringify({ name, hash })`: the exact character stream
the source serializes. -/
def stringifyCursor (name hash : List Char) : List Char :=
  nameKey ++ jsonEscape name ++ hashKey ++ jsonEscape hash ++ ['"', '\x7d']

/-- Model of `JSON.parse` followed by reading the string fields `name` and
`hash`: accepts the serialization shape above, fails on anything else. -/
def parseCursorJson (cs : List Char) : Option (List Char × List Char) :=
  (stripToken nameKey cs).bind fun r1 =>
  (parseJsonString r1).bind fun p1 =>
  (stripToken (hashKey.drop 1) p1.2).bind fun r3 =>
  (parseJsonString r3).bind fun p2 =>
  if p2.2 = ['\x7d'] then some (p1.1, p2.1) else none

theorem stripToken_append (ts rest : List Char) :
    stripToken ts (ts ++ rest) = some rest := by
  induction ts with
  | nil => rfl
  | cons t ts ih => simp [stripToken, ih]

theorem parseJsonStringFuel_backslash (f : Nat) (t : List Char) (u : Char)
    (rest1 : List Char) (h : lexEscape t = some (u, rest1)) :
    parseJsonStringFuel (f + 1) ('\\' :: t) =
      (parseJsonStringFuel f rest1).map (fun p => (u :: p.1, p.2)) := by
  simp only [parseJsonStringFuel]
  try dsimp only
  rw [h]
  simp

theorem parseJsonStringFuel_escape :
    ∀ (s : List Char) (fuel : Nat) (rest : List Char),
      (jsonEscape s ++ '"' :: rest).length ≤ fuel →
      parseJsonStringFuel fuel (jsonEscape s ++ '"' :: rest) = some (s, rest) := by
  intro s
  induction s with
  | nil =>
    intro fuel rest hf
    simp only [jsonEscape, List.map_nil, List.flatten_nil, List.nil_append] at hf ⊢
    cases fuel with
    | zero => simp at hf
    | succ f =>
      simp only [parseJsonStringFuel]
      try dsimp only
      rw [if_pos trivial]
  | cons c s ih =>
    intro fuel rest hf
    have hesc : jsonEscape (c :: s) ++ '"' :: rest =
        jsonEscapeChar c ++ (jsonEscape s ++ '"' :: rest) := by
      simp [jsonEscape]
    rw [hesc] at hf ⊢
    rw [List.length_append] at hf
    by_cases h1 : c = '"'
    · subst h1
      have hk : (jsonEscapeChar '"').length = 2 := rfl
      rw [hk] at hf
      cases fuel with
      | zero => omega
      | succ f =>
        rw [show jsonEscapeChar '"' ++ (jsonEscape s ++ '"' :: rest) =
            '\\' :: ('"' :: (jsonEscape s ++ '"' :: rest)) from rfl]
        rw [parseJsonStringFuel_backslash f ('"' :: (jsonEscape s ++ '"' :: rest)) '"' (jsonEscape s ++ '"' :: rest) rfl]
        rw [ih f rest (by omega)]
        rfl
    · by_cases h2 : c = '\\'
      · subst h2
        have hk : (jsonEscapeChar '\\').length = 2 := rfl
        rw [hk] at hf
        cases fuel with
        | zero => omega
        | succ f =>
          rw [show jsonEscapeChar '\\' ++ (jsonEscape s ++ '"' :: rest) =
              '\\' :: ('\\' :: (jsonEscape s ++ '"' :: rest)) from rfl]
          rw [parseJsonStringFuel_backslash f ('\\' :: (jsonEscape s ++ '"' :: rest)) '\\' (jsonEscape s ++ '"' :: rest) rfl]
          rw [ih f rest (by omega)]
          rfl
      · by_cases h3 : c = Char.ofNat 8
        · subst h3
          have hk : (jsonEscapeChar (Char.ofNat 8)).length = 2 := rfl
          rw [hk] at hf
          cases fuel with
          | zero => omega
          | succ f =>
            rw [show jsonEscapeChar (Char.ofNat 8) ++ (jsonEscape s ++ '"' :: rest) =
                '\\' :: ('b' :: (jsonEscape s ++ '"' :: rest)) from rfl]
            rw [parseJsonStringFuel_backslash f ('b' :: (jsonEscape s ++ '"' :: rest)) (Char.ofNat 8) (jsonEscape s ++ '"' :: rest) rfl]
            rw [ih f rest (by omega)]
            rfl
        · by_cases h4 : c = Char.ofNat 9
          · subst h4
            have hk : (jsonEscapeChar (Char.ofNat 9)).length = 2 := rfl
            rw [hk] at hf
            cases fuel with
            | zero => omega
            | succ f =>
              rw [show jsonEscapeChar (Char.ofNat 9) ++ (jsonEscape s ++ '"' :: rest) =
                  '\\' :: ('t' :: (jsonEscape s ++ '"' :: rest)) from rfl]
              rw [parseJsonStringFuel_backslash f ('t' :: (jsonEscape s ++ '"' :: rest)) (Char.ofNat 9) (jsonEscape s ++ '"' :: rest) rfl]
              rw [ih f rest (by omega)]
              rfl
          · by_cases h5 : c = Char.ofNat 10
            · subst h5
              have hk : (jsonEscapeChar (Char.ofNat 10)).length = 2 := rfl
              rw [hk] at hf
              cases fuel with
              | zero => omega
              | succ f =>
                rw [show jsonEscapeChar (Char.ofNat 10) ++ (jsonEscape s ++ '"' :: rest) =
                    '\\' :: ('n' :: (jsonEscape s ++ '"' :: rest)) from rfl]
                rw [parseJsonStringFuel_backslash f ('n' :: (jsonEscape s ++ '"' :: rest)) (Char.ofNat 10) (jsonEscape s ++ '"' :: rest) rfl]
                rw [ih f rest (by omega)]
                rfl
            · by_cases h6 : c = Char.ofNat 12
              · subst h6
                have hk : (jsonEscapeChar (Char.ofNat 12)).length = 2 := rfl
                rw [hk] at hf
                cases fuel with
                | zero => omega
                | succ f =>
                  rw [show jsonEscapeChar (Char.ofNat 12) ++ (jsonEscape s ++ '"' :: rest) =
                      '\\' :: ('f' :: (jsonEscape s ++ '"' :: rest)) from rfl]
                  rw [parseJsonStringFuel_backslash f ('f' :: (jsonEscape s ++ '"' :: rest)) (Char.ofNat 12) (jsonEscape s ++ '"' :: rest) rfl]
                  rw [ih f rest (by omega)]
                  rfl
              · by_cases h7 : c = Char.ofNat 13
                · subst h7
                  have hk : (jsonEscapeChar (Char.ofNat 13)).length = 2 := rfl
                  rw [hk] at hf
                  cases fuel with
                  | zero => omega
                  | succ f =>
                    rw [show jsonEscapeChar (Char.ofNat 13) ++ (jsonEscape s ++ '"' :: rest) =
                        '\\' :: ('r' :: (jsonEscape s ++ '"' :: rest)) from rfl]
                    rw [parseJsonStringFuel_backslash f ('r' :: (jsonEscape s ++ '"' :: rest)) (Char.ofNat 13) (jsonEscape s ++ '"' :: rest) rfl]
                    rw [ih f rest (by omega)]
                    rfl
                · by_cases h8 : c.toNat < 32
                  · have hesc2 : jsonEscapeChar c =
                        ['\\', 'u', '0', '0', hexDigitChar (c.toNat / 16),
                          hexDigitChar (c.toNat % 16)] := by
                      unfold jsonEscapeChar
                      rw [if_neg h1, if_neg h2, if_neg h3, if_neg h4, if_neg h5, if_neg h6,
                        if_neg h7, if_pos h8]
                    have hlex : lexEscape ('u' :: '0' :: '0' :: hexDigitChar (c.toNat / 16) ::
                        hexDigitChar (c.toNat % 16) :: (jsonEscape s ++ '"' :: rest)) =
                        some (c, jsonEscape s ++ '"' :: rest) := by
                      rw [lexEscape.eq_def]
                      try dsimp only
                      rw [show escUnmap 'u' = none from rfl]
                      try dsimp only
                      rw [if_pos rfl]
                      try dsimp only
                      rw [show hexVal '0' = some 0 from rfl,
                        hexVal_hexDigitChar _ (by omega), hexVal_hexDigitChar _ (by omega)]
                      try dsimp only
                      rw [show (0 : Nat) * 4096 + 0 * 256 + c.toNat / 16 * 16 + c.toNat % 16 =
                        c.toNat from by omega, Char.ofNat_toNat]
                    have hk : (jsonEscapeChar c).length = 6 := by rw [hesc2]; rfl
                    rw [hk] at hf
                    cases fuel with
                    | zero => omega
                    | succ f =>
                      rw [hesc2]
                      simp only [List.cons_append, List.nil_append]
                      rw [parseJsonStringFuel_backslash f _ c _ hlex]
                      rw [ih f rest (by omega)]
                      rfl
                  · have hesc2 : jsonEscapeChar c = [c] := by
                      unfold jsonEscapeChar
                      rw [if_neg h1, if_neg h2, if_neg h3, if_neg h4, if_neg h5, if_neg h6,
                        if_neg h7, if_neg h8]
                    have hk : (jsonEscapeChar c).length = 1 := by rw [hesc2]; rfl
                    rw [hk] at hf
                    cases fuel with
                    | zero => omega
                    | succ f =>
                      rw [hesc2]
                      simp only [List.cons_append, List.nil_append]
                      simp only [parseJsonStringFuel]
                      try dsimp only
                      rw [if_neg h1, if_neg h2, if_neg (by omega)]
                      rw [ih f rest (by omega)]
                      rfl

theorem parseJsonString_escape (s : List Char) (rest : List Char) :
    parseJsonString (jsonEscape s ++ '"' :: rest) = some (s, rest) :=
  parseJsonStringFuel_escape s _ rest le_rfl

/-- Round trip of the JSON layer on the cursor object shape. -/
theorem parseCursorJson_stringify (name hash : List Char) :
    parseCursorJson (stringifyCursor name hash) = some (name, hash) := by
  unfold parseCursorJson stringifyCursor
  rw [List.append_assoc, List.append_assoc, List.append_assoc, stripToken_append]
  simp only [Option.some_bind]
  have hkey : jsonEscape name ++ (hashKey ++ (jsonEscape hash ++ ['"', '\x7d'])) =
      jsonEscape name ++ '"' :: (hashKey.drop 1 ++ (jsonEscape hash ++ ['"', '\x7d'])) := by
    simp [hashKey]
  rw [hkey, parseJsonString_escape]
  simp only [Option.some_bind]
  rw [stripToken_append]
  simp only [Option.some_bind]
  rw [parseJsonString_escape]
  simp only [Option.some_bind]
  simp

/-! ### The cursor codec itself (`pagination.ts`) -/

/-- Composite cursor key (interface `CursorData`): `{name, hash}`. -/
structure CursorData where
  name : String
  hash : String
deriving DecidableEq, Repr

/-- Model of `encodeCursor`: serialize `{name, hash}` to JSON, encode the
UTF-8 bytes in base64, and make the result URL-safe. -/
def encodeCursor (data : CursorData) : String :=
  String.mk (toUrlSafeBase64 (b64Encode (utf8Encode
    (stringifyCursor data.name.data data.hash.data))))

/-- Model of `decodeCursor`: `null` for an absent or empty cursor string
(`if (!cursor) return null`); otherwise decode base64 leniently, parse the
JSON, and lowercase the `name` field (`decoded.name.toLowerCase()`); every
failure inside the `try` block yields `null`. -/
def decodeCursor (cursor : Option String) : Option CursorData :=
  match cursor with
  | none => none
  | some s =>
    if s = "" then none
    else
      match utf8Decode (b64DecodeLenient (fromUrlSafeBase64 s.data)) with
      | none => none
      | some chars =>
        match parseCursorJson chars with
        | none => none
        | some (nm, hs) => some ⟨toLowerCase (String.mk nm), String.mk hs⟩

theorem toUrlSafeBase64_b64Encode_ne_nil (a : Nat) (ha : a < 256) (bs : List Nat) :
    toUrlSafeBase64 (b64Encode (a :: bs)) ≠ [] := by
  have hne := (urlRound_sextetChar (a / 4) (by omega)).2
  have hmem : urlEncChar (sextetChar (a / 4)) ∈ toUrlSafeBase64 (b64Encode (a :: bs)) := by
    unfold toUrlSafeBase64
    apply List.mem_filter.mpr
    constructor
    · apply List.mem_map_of_mem
      cases bs with
      | nil => simp [b64Encode]
      | cons b bs' =>
        cases bs' with
        | nil => simp [b64Encode]
        | cons c cs => simp [b64Encode]
    · simpa using hne
  intro hc
  rw [hc] at hmem
  simp at hmem

theorem encodeCursor_ne_empty (d : CursorData) : encodeCursor d ≠ "" := by
  unfold encodeCursor
  intro hc
  have hl : toUrlSafeBase64 (b64Encode (utf8Encode
      (stringifyCursor d.name.data d.hash.data))) = [] := by
    simpa using congrArg String.data hc
  obtain ⟨bs, hbs⟩ : ∃ bs, utf8Encode (stringifyCursor d.name.data d.hash.data) =
      123 :: bs := ⟨_, rfl⟩
  rw [hbs] at hl
  exact toUrlSafeBase64_b64Encode_ne_nil 123 (by omega) bs hl

/-- Composite round trip of the whole codec: decoding an encoded cursor
yields the hash unchanged and the name lowercased. -/
theorem decodeCursor_encodeCursor (d : CursorData) :
    decodeCursor (some (encodeCursor d)) = some ⟨toLowerCase d.name, d.hash⟩ := by
  unfold decodeCursor
  dsimp only
  rw [if_neg (encodeCursor_ne_empty d)]
  have hdata : (encodeCursor d).data = toUrlSafeBase64 (b64Encode (utf8Encode
      (stringifyCursor d.name.data d.hash.data))) := rfl
  rw [hdata, b64_urlsafe_roundtrip _ (utf8Encode_lt_256 _), utf8Decode_encode]
  dsimp only
  rw [parseCursorJson_stringify]

/-- Claim C4 (amended): the round trip preserves the `hash` field character
for character, but maps the `name` field through `toLowerCase` (because
`decodeCursor` lowercases it); an absent or empty cursor decodes to the
no-cursor result `none`, not an error. -/
theorem C4_roundtrip (d : CursorData) :
    decodeCursor (some (encodeCursor d)) = some ⟨toLowerCase d.name, d.hash⟩ ∧
      decodeCursor none = none ∧ decodeCursor (some "") = none :=
  ⟨decodeCursor_encodeCursor d, rfl, rfl⟩

/-- Claim C4, counterexample to the claim as stated: for the key
`{name := "A", hash := "h"}` the decode of the encode returns
`{name := "a", hash := "h"}`, so the `name` field is not preserved
character for character. -/
theorem C4_counterexample :
    decodeCursor (some (encodeCursor ⟨"A", "h"⟩)) = some ⟨"a", "h"⟩ ∧
      (⟨"a", "h"⟩ : CursorData) ≠ ⟨"A", "h"⟩ := by
  constructor
  · rfl
  · decide

/-! ## The paginated children endpoint

Model of `GET /entries/:hash/children` in the final server iteration (the
`main.ts` revision that imports `pagination.ts`; the earlier revision with
inline base64 handling has the same query, `pop()` and `hasMore` logic).
The SQLite `nodes` table is a list of rows; `ORDER BY LOWER(name) ASC,
hash ASC` is insertion sort by that key (the `hash` column is the primary
key, so the order is total on well-formed stores); `LIMIT n` is `take n`. -/

/-- Row of the `nodes` table: the bulk-loaded flattener output columns
`hash, parentHash, name, size`. -/
abbrev NodeRow := OutputEntry

/-- Byte-wise (code-point) lexicographic comparison, the semantics of
SQLite's default BINARY collation on UTF-8 text (code-point order and
UTF-8 byte order agree). -/
def strLtL : List Char → List Char → Bool
  | [], [] => false
  | [], _ :: _ => true
  | _ :: _, [] => false
  | c :: cs, d :: ds =>
    if c.toNat < d.toNat then true
    else if d.toNat < c.toNat then false
    else strLtL cs ds

/-- Strict string comparison (BINARY collation). -/
def strLt (a b : String) : Bool := strLtL a.data b.data

/-- Reflexive string comparison (BINARY collation). -/
def strLe (a b : String) : Bool := strLt a b || a == b

/-- Composite comparison `(LOWER(name), hash)` used by every `ORDER BY`. -/
def rowLeB (a b : NodeRow) : Bool :=
  strLt (toLowerCase a.name) (toLowerCase b.name) ||
    (toLowerCase a.name == toLowerCase b.name && strLe a.hash b.hash)

/-- The same comparison as a decidable relation for `insertionSort`. -/
def rowLe (a b : NodeRow) : Prop := rowLeB a b = true

instance : DecidableRel rowLe := fun a b =>
  inferInstanceAs (Decidable (rowLeB a b = true))

/-- Cursor predicate `(LOWER(name) > ? OR (LOWER(name) = ? AND hash > ?))`;
absent cursor means no restriction.  The cursor's `name` component is
already lowercased by `decodeCursor`. -/
def afterCursorB (cur : Option CursorData) (e : NodeRow) : Bool :=
  match cur with
  | none => true
  | some c =>
    strLt c.name (toLowerCase e.name) ||
      (toLowerCase e.name == c.name && strLt c.hash e.hash)

/-- The children SELECT: filter by `parentHash` and cursor, order by
`(LOWER(name), hash)`, take `n` rows (`LIMIT ?` bound to `limit + 1`). -/
def childrenQuery (nodes : List NodeRow) (hash : String) (cur : Option CursorData)
    (n : Nat) : List NodeRow :=
  (((nodes.filter (fun e => decide (e.parentHash = some hash) && afterCursorB cur e))).insertionSort
    rowLe).take n

/-- Row of a JSON response: a node annotated with `childrenUrl`
(`size > 0 ? '/entries/HASH/children' : null`). -/
structure EntryOut where
  hash : String
  parentHash : Option String
  name : String
  size : Nat
  childrenUrl : Option String
deriving DecidableEq, Repr

/-- Annotation performed by `children.map(...)` in both endpoints. -/
def annotate (e : NodeRow) : EntryOut :=
  ⟨e.hash, e.parentHash, e.name, e.size,
    if e.size > 0 then some ("/entries/" ++ e.hash ++ "/children") else none⟩

/-- Interface `PaginationResponse` of `pagination.ts`. -/
structure PaginationResponse where
  limit : Nat
  hasMore : Bool
  nextCursor : Option String
  nextChildrenUrl : Option String
deriving DecidableEq, Repr

/-- Model of `buildPaginationResponse`: attach `nextCursor` and the next
URL exactly when `hasMore` and a last item are present. -/
def buildPaginationResponse (limit : Nat) (hasMore : Bool) (lastItem : Option CursorData)
    (buildNextUrl : String → String) : PaginationResponse :=
  match hasMore, lastItem with
  | true, some li => ⟨limit, true, some (encodeCursor li), some (buildNextUrl (encodeCursor li))⟩
  | b, _ => ⟨limit, b, none, none⟩

/-- JavaScript truthiness of the optional `cursor` query parameter
(`undefined` and the empty string are falsy). -/
def cursorTruthy : Option String → Bool
  | none => false
  | some s => !(s == "")

/-- Body of a children response. -/
structure ChildrenResponse where
  data : List EntryOut
  pagination : PaginationResponse
deriving DecidableEq, Repr

/-- Model of the `GET /entries/:hash/children` handler: 400 on a supplied
but undecodable cursor; otherwise fetch `limit + 1` rows, set `hasMore`
when all `limit + 1` arrived, `pop()` the extra row and build the next
cursor from the popped row's `(name, hash)`. -/
def childrenHandler (nodes : List NodeRow) (hash : String) (limit : Nat)
    (cursor : Option String) : Except String ChildrenResponse :=
  if cursorTruthy cursor && (decodeCursor cursor).isNone then
    .error "Invalid cursor format"
  else
    let decodedCursor := decodeCursor cursor
    let children := childrenQuery nodes hash decodedCursor (limit + 1)
    let hasMore := decide (limit < children.length)
    let retained := if hasMore then children.dropLast else children
    let lastItem : Option CursorData :=
      if hasMore then children.getLast?.map (fun e => ⟨e.name, e.hash⟩) else none
    .ok ⟨retained.map annotate,
      buildPaginationResponse limit hasMore lastItem
        (fun nc => "/entries/" ++ hash ++ "/children?limit=" ++ toString limit ++
          "&cursor=" ++ nc)⟩

/-- Drive the children endpoint like the spec's pagination loop: feed each
returned `nextCursor` into the next call while `hasMore`, and concatenate
the pages (fuel-bounded). -/
def paginateChildren (nodes : List NodeRow) (hash : String) (limit : Nat) :
    Nat → Option String → List EntryOut → List EntryOut
  | 0, _, acc => acc
  | fuel + 1, cursor, acc =>
    match childrenHandler nodes hash limit cursor with
    | .error _ => acc
    | .ok resp =>
      match resp.pagination.hasMore, resp.pagination.nextCursor with
      | true, some nc => paginateChildren nodes hash limit fuel (some nc) (acc ++ resp.data)
      | _, _ => acc ++ resp.data

/-- All pages of the children endpoint, concatenated. -/
def paginateAll (nodes : List NodeRow) (hash : String) (limit : Nat) : List EntryOut :=
  paginateChildren nodes hash limit (nodes.length + 1) none []

/-- Demo store: a parent `p` with three children named a, b, c. -/
def demoNodes : List NodeRow :=
  [⟨"p", none, "P", 3⟩,
   ⟨"h1", some "p", "a", 0⟩,
   ⟨"h2", some "p", "b", 0⟩,
   ⟨"h3", some "p", "c", 0⟩]

/-- Claim C5, failing-input evidence: with limit 1 and three children, the
first page retains only the child `a` but derives the next cursor from the
dropped extra row `b` — not from the last retained row `a` as the claim
and the spec require. -/
theorem C5_cursor_from_dropped_row :
    ∃ r, childrenHandler demoNodes "p" 1 none = .ok r ∧
      r.data.map (fun e => e.hash) = ["h1"] ∧
      r.pagination.hasMore = true ∧
      r.pagination.nextCursor = some (encodeCursor ⟨"b", "h2"⟩) ∧
      r.pagination.nextCursor ≠ some (encodeCursor ⟨"a", "h1"⟩) := by
  refine ⟨_, rfl, ?_, ?_, ?_, ?_⟩ <;> decide

/-- Claim C2, failing-input evidence: paginating the three children with
page size 1 and feeding every returned cursor back yields only `a` and
`c`; the child `b` is skipped at the first page boundary, so the
concatenation differs from the single unbounded fetch. -/
theorem C2_pagination_skips_rows :
    (paginateAll demoNodes "p" 1).map (fun e => e.hash) = ["h1", "h3"] ∧
      ((childrenQuery demoNodes "p" none demoNodes.length).map (fun e => e.hash)) =
        ["h1", "h2", "h3"] ∧
      paginateAll demoNodes "p" 1 ≠
        (childrenQuery demoNodes "p" none demoNodes.length).map annotate := by
  refine ⟨by decide, by decide, by decide⟩

/-! ## The search + ancestor reconstruction endpoint

Model of `GET /entries/search` in the final server iteration: paginate the
case-insensitive substring matches in `(LOWER(name), hash)` order, compute
`has_more` from the match set via `EXISTS(row_num = limit + 1)`, walk every
match's ancestor chain with the recursive CTE, deduplicate by `hash`
keeping the row with least `(depth, matchHash)` (`ROW_NUMBER() PARTITION
BY hash ... WHERE rn = 1`), and order the output by
`(matchHash ASC, depth DESC)`. -/

/-- Substring containment, the model of `LOWER(name) LIKE '%term%'` for a
term without LIKE wildcards. -/
def containsSubstr (hay needle : String) : Bool :=
  hay.data.tails.any (fun t => needle.data.isPrefixOf t)

/-- Match predicate of the search: `LOWER(n.name) LIKE ?` with the bound
pattern `'%' + q.trim().toLowerCase() + '%'`. -/
def searchTermMatches (q : String) (e : NodeRow) : Bool :=
  containsSubstr (toLowerCase e.name) (toLowerCase (jsTrim q))

/-- The CTE `search_matches` in `(LOWER(name), hash)` order (its
`ROW_NUMBER` is the position in this list plus one). -/
def searchMatchesAfter (nodes : List NodeRow) (q : String) (cur : Option CursorData) :
    List NodeRow :=
  (nodes.filter (fun e => searchTermMatches q e && afterCursorB cur e)).insertionSort rowLe

/-- One row of the `ancestor_paths` CTE. -/
structure AncRow where
  row : NodeRow
  depth : Nat
  matchHash : String
deriving DecidableEq, Repr

/-- One expansion step of the recursive CTE: join each previous-level row's
`parentHash` against `nodes.hash`. -/
def ancStep (nodes : List NodeRow) (prev : List AncRow) : List AncRow :=
  prev.flatMap (fun ap =>
    (nodes.filter (fun n => ap.row.parentHash == some n.hash)).map
      (fun n => ⟨n, ap.depth + 1, ap.matchHash⟩))

/-- Levels of the recursive CTE, by fuel (the store size bounds the chain
length on the acyclic stores the loader produces; on a cyclic store the
SQL recursion would not terminate at all). -/
def ancLevels (nodes : List NodeRow) : Nat → List AncRow → List (List AncRow)
  | 0, _ => []
  | fuel + 1, lvl => if lvl.isEmpty then [] else lvl :: ancLevels nodes fuel (ancStep nodes lvl)

/-- The full `ancestor_paths` CTE for a list of paginated matches. -/
def ancestorPaths (nodes : List NodeRow) (pms : List NodeRow) : List AncRow :=
  (ancLevels nodes (nodes.length + 1) (pms.map (fun pm => ⟨pm, 0, pm.hash⟩))).flatten

/-- Strictly-better comparison of two candidate representatives of one
`hash` partition: lexicographic `(depth ASC, matchHash ASC)`. -/
def betterRep (a b : AncRow) : Bool :=
  decide (a.depth < b.depth) || (decide (a.depth = b.depth) && strLt a.matchHash b.matchHash)

/-- Minimal element of a partition (the `rn = 1` row). -/
def pickRep (rows : List AncRow) : Option AncRow :=
  rows.foldl
    (fun acc r =>
      match acc with
      | none => some r
      | some b => if betterRep r b then some r else some b)
    none

/-- The `deduplicated_paths ... WHERE rn = 1` step: one representative row
per distinct `hash`. -/
def dedupByHash (rows : List AncRow) : List AncRow :=
  ((rows.map (fun r => r.row.hash)).dedup).filterMap
    (fun h => pickRep (rows.filter (fun r => r.row.hash == h)))

/-- Final `ORDER BY dp.matchHash, dp.depth DESC`. -/
def ancOrderB (a b : AncRow) : Bool :=
  strLt a.matchHash b.matchHash || (a.matchHash == b.matchHash && decide (b.depth ≤ a.depth))

/-- The same ordering as a decidable relation. -/
def ancOrder (a b : AncRow) : Prop := ancOrderB a b = true

instance : DecidableRel ancOrder := fun a b =>
  inferInstanceAs (Decidable (ancOrderB a b = true))

/-- The rows the search query returns (before response assembly). -/
def searchRows (nodes : List NodeRow) (q : String) (cur : Option CursorData)
    (limit : Nat) : List AncRow :=
  (dedupByHash (ancestorPaths nodes ((searchMatchesAfter nodes q cur).take limit))).insertionSort
    ancOrder

/-- Emptiness of the `q` query parameter: absent, empty after JavaScript
coercion, or whitespace-only (`!q || typeof q !== 'string' ||
q.trim() === ''`). -/
def qEmpty : Option String → Bool
  | none => true
  | some s => jsTrim s == ""

/-- Body of a search response. -/
structure SearchResponse where
  data : List EntryOut
  pagination : PaginationResponse
deriving DecidableEq, Repr

/-- Model of the `GET /entries/search` handler. -/
def searchHandler (nodes : List NodeRow) (q : Option String) (limit : Nat)
    (cursor : Option String) : Except String SearchResponse :=
  if qEmpty q then .ok ⟨[], ⟨limit, false, none, none⟩⟩
  else if cursorTruthy cursor && (decodeCursor cursor).isNone then
    .error "Invalid cursor format"
  else
    let qs := q.getD ""
    let decodedCursor := decodeCursor cursor
    let matchRows := searchMatchesAfter nodes qs decodedCursor
    let queryResult := searchRows nodes qs decodedCursor limit
    let hasMore := if queryResult.isEmpty then false else decide (limit < matchRows.length)
    let lastItem : Option CursorData :=
      if hasMore then
        (queryResult.filter (fun r => r.depth == 0)).getLast?.map
          (fun r => ⟨r.row.name, r.row.hash⟩)
      else none
    if queryResult.isEmpty then .ok ⟨[], ⟨limit, false, none, none⟩⟩
    else
      .ok ⟨queryResult.map (fun r => annotate r.row),
        buildPaginationResponse limit hasMore lastItem
          (fun nc => "/entries/search?q=" ++ qs ++ "&limit=" ++ toString limit ++
            "&cursor=" ++ nc)⟩

/-! ### Properties of the search pipeline -/

theorem annotate_hash (e : NodeRow) : (annotate e).hash = e.hash := rfl

theorem buildPaginationResponse_hasMore (limit : Nat) (hm : Bool) (li : Option CursorData)
    (f : String → String) : (buildPaginationResponse limit hm li f).hasMore = hm := by
  cases hm <;> cases li <;> rfl

theorem pickRep_go_isSome (l : List AncRow) :
    ∀ (b : AncRow),
      (l.foldl
        (fun acc r =>
          match acc with
          | none => some r
          | some b => if betterRep r b then some r else some b)
        (some b)).isSome := by
  induction l with
  | nil => intro b; rfl
  | cons x xs ih =>
    intro b
    simp only [List.foldl_cons]
    try dsimp only
    cases hbr : betterRep x b
    · rw [if_neg (by simp)]
      exact ih b
    · rw [if_pos rfl]
      exact ih x

theorem pickRep_isSome (l : List AncRow) (h : l ≠ []) : (pickRep l).isSome := by
  cases l with
  | nil => exact absurd rfl h
  | cons r rest =>
    unfold pickRep
    simp only [List.foldl_cons]
    exact pickRep_go_isSome rest r

theorem pickRep_go_mem (l : List AncRow) :
    ∀ (acc : Option AncRow) (r : AncRow),
      l.foldl
        (fun acc r =>
          match acc with
          | none => some r
          | some b => if betterRep r b then some r else some b)
        acc = some r →
      r ∈ l ∨ acc = some r := by
  induction l with
  | nil => intro acc r h; exact Or.inr h
  | cons x xs ih =>
    intro acc r h
    simp only [List.foldl_cons] at h
    rcases ih _ r h with hmem | hstep
    · exact Or.inl (List.mem_cons_of_mem x hmem)
    · cases acc with
      | none =>
        simp only at hstep
        injection hstep with hx
        exact Or.inl (hx ▸ List.mem_cons_self x xs)
      | some b =>
        simp only at hstep
        split at hstep
        · injection hstep with hx
          exact Or.inl (hx ▸ List.mem_cons_self x xs)
        · exact Or.inr hstep

theorem pickRep_mem (l : List AncRow) (r : AncRow) (h : pickRep l = some r) : r ∈ l := by
  unfold pickRep at h
  rcases pickRep_go_mem l none r h with hmem | habs
  · exact hmem
  · exact absurd habs (by simp)

theorem pickRep_filter_hash (rows : List AncRow) (h : String) (r : AncRow)
    (hp : pickRep (rows.filter (fun r => r.row.hash == h)) = some r) :
    r.row.hash = h := by
  have hm := pickRep_mem _ _ hp
  have := List.of_mem_filter hm
  simpa using this

theorem filterMap_key_nodup {α : Type} (f : String → Option α) (key : α → String)
    (hf : ∀ h r, f h = some r → key r = h) :
    ∀ (hs : List String), hs.Nodup → ((hs.filterMap f).map key).Nodup := by
  intro hs
  induction hs with
  | nil => intro _; simp
  | cons h hs ih =>
    intro hnd
    rw [List.nodup_cons] at hnd
    obtain ⟨hnotin, hnd'⟩ := hnd
    cases hfh : f h with
    | none => simpa [List.filterMap_cons, hfh] using ih hnd'
    | some r =>
      simp only [List.filterMap_cons, hfh, List.map_cons, List.nodup_cons]
      refine ⟨?_, ih hnd'⟩
      intro hmem
      simp only [List.mem_map, List.mem_filterMap] at hmem
      obtain ⟨r', ⟨h', hh', hfr'⟩, hkey⟩ := hmem
      rw [hf h r hfh] at hkey
      rw [hf h' r' hfr'] at hkey
      exact hnotin (hkey ▸ hh')

theorem dedupByHash_hash_nodup (rows : List AncRow) :
    ((dedupByHash rows).map (fun r => r.row.hash)).Nodup := by
  unfold dedupByHash
  exact filterMap_key_nodup _ _
    (fun h r hp => pickRep_filter_hash rows h r hp)
    ((rows.map (fun r => r.row.hash)).dedup) (List.nodup_dedup _)

theorem dedupByHash_eq_nil_iff (rows : List AncRow) :
    dedupByHash rows = [] ↔ rows = [] := by
  constructor
  · intro hnil
    cases rows with
    | nil => rfl
    | cons r rest =>
      exfalso
      unfold dedupByHash at hnil
      rw [List.filterMap_eq_nil_iff] at hnil
      have hmem : r.row.hash ∈ ((r :: rest).map (fun r => r.row.hash)).dedup := by
        rw [List.mem_dedup]
        exact List.mem_map_of_mem _ (List.mem_cons_self r rest)
      have hpick := hnil _ hmem
      have hfil : r ∈ (r :: rest).filter (fun x => x.row.hash == r.row.hash) := by
        apply List.mem_filter.mpr
        exact ⟨List.mem_cons_self r rest, by simp⟩
      have : ((r :: rest).filter (fun x => x.row.hash == r.row.hash)) ≠ [] := by
        intro hc
        rw [hc] at hfil
        simp at hfil
      have := pickRep_isSome _ this
      rw [hpick] at this
      simp at this
  · intro h
    subst h
    rfl

theorem ancestorPaths_eq_nil_iff (nodes pms : List NodeRow) :
    ancestorPaths nodes pms = [] ↔ pms = [] := by
  constructor
  · intro hnil
    cases pms with
    | nil => rfl
    | cons p rest =>
      exfalso
      unfold ancestorPaths at hnil
      rw [ancLevels] at hnil
      rw [if_neg (by simp)] at hnil
      simp at hnil
  · intro h
    subst h
    unfold ancestorPaths
    rw [ancLevels]
    rw [if_pos (by simp)]
    rfl

theorem insertionSort_eq_nil_iff {α : Type} (r : α → α → Prop) [DecidableRel r]
    (l : List α) : l.insertionSort r = [] ↔ l = [] := by
  constructor
  · intro h
    have := (List.perm_insertionSort r l).length_eq
    rw [h] at this
    exact List.length_eq_zero.mp this.symm
  · intro h
    subst h
    rfl

theorem searchRows_eq_nil_iff (nodes : List NodeRow) (q : String)
    (cur : Option CursorData) (limit : Nat) :
    searchRows nodes q cur limit = [] ↔ (searchMatchesAfter nodes q cur).take limit = [] := by
  unfold searchRows
  rw [insertionSort_eq_nil_iff, dedupByHash_eq_nil_iff, ancestorPaths_eq_nil_iff]

theorem searchHandler_data (nodes : List NodeRow) (q : Option String) (limit : Nat)
    (cursor : Option String) (resp : SearchResponse)
    (hok : searchHandler nodes q limit cursor = .ok resp) :
    resp.data = [] ∨
      resp.data = (searchRows nodes (q.getD "") (decodeCursor cursor) limit).map
        (fun r => annotate r.row) := by
  simp only [searchHandler] at hok
  split_ifs at hok
  all_goals
    first
      | exact Except.noConfusion hok
      | (injection hok with h
         subst h
         first
           | exact Or.inl rfl
           | exact Or.inr rfl)

/-- Claim C3: no page returned by the search endpoint contains two entries
with the same id — the deduplication step keeps exactly one row per
distinct hash. -/
theorem C3_search_dedup (nodes : List NodeRow) (q : Option String) (limit : Nat)
    (cursor : Option String) (resp : SearchResponse)
    (hok : searchHandler nodes q limit cursor = .ok resp) :
    (resp.data.map (fun e => e.hash)).Nodup := by
  rcases searchHandler_data nodes q limit cursor resp hok with hd | hd
  · rw [hd]
    simp
  · rw [hd]
    simp only [List.map_map]
    have heq : ((fun e : EntryOut => e.hash) ∘ fun r : AncRow => annotate r.row) =
        fun r : AncRow => r.row.hash := by
      funext r
      simp [annotate_hash, Function.comp]
    rw [heq]
    have hperm := (List.perm_insertionSort ancOrder
      (dedupByHash (ancestorPaths nodes
        ((searchMatchesAfter nodes (q.getD "") (decodeCursor cursor)).take limit)))).map
      (fun r : AncRow => r.row.hash)
    exact hperm.symm.nodup (dedupByHash_hash_nodup _)

/-- Demo store for the search endpoint: a root and two matches named
"beta" sharing it as ancestor. -/
def searchDemoNodes : List NodeRow :=
  [⟨"r", none, "top", 2⟩,
   ⟨"m1", some "r", "top > beta", 0⟩,
   ⟨"m2", some "r", "top > beta", 0⟩]

/-- Witness for C3: the concrete search returns each node at most once even
though both matches share the root as ancestor. -/
theorem C3_search_dedup_witness :
    (((searchHandler searchDemoNodes (some "beta") 10 none).toOption.getD
        ⟨[], ⟨10, false, none, none⟩⟩).data.map (fun e => e.hash)).Nodup := by
  have h : searchHandler searchDemoNodes (some "beta") 10 none =
      .ok ((searchHandler searchDemoNodes (some "beta") 10 none).toOption.getD
        ⟨[], ⟨10, false, none, none⟩⟩) := by rfl
  exact C3_search_dedup searchDemoNodes (some "beta") 10 none _ h

/-- Claim C8: the `hasMore` flag of a successful search response equals
the existence of a `(limit+1)`-th match in the cursor-filtered match set —
a function of the match set alone, independent of how many ancestor rows
the reconstruction adds. -/
theorem C8_hasMore_from_match_set (nodes : List NodeRow) (qs : String) (limit : Nat)
    (cursor : Option String) (resp : SearchResponse)
    (hq : qEmpty (some qs) = false) (hlim : 1 ≤ limit)
    (hok : searchHandler nodes (some qs) limit cursor = .ok resp) :
    resp.pagination.hasMore =
      decide (limit < (searchMatchesAfter nodes qs (decodeCursor cursor)).length) := by
  simp only [searchHandler] at hok
  rw [if_neg (by simp [hq])] at hok
  by_cases hcur : (cursorTruthy cursor && (decodeCursor cursor).isNone) = true
  · rw [if_pos hcur] at hok
    exact Except.noConfusion hok
  · rw [if_neg hcur] at hok
    simp only [Option.getD_some] at hok
    by_cases hemp : (searchRows nodes qs (decodeCursor cursor) limit).isEmpty = true
    · simp only [hemp, if_true] at hok
      injection hok with h
      subst h
      have h1 : searchRows nodes qs (decodeCursor cursor) limit = [] := by
        simpa using hemp
      have h2 := (searchRows_eq_nil_iff nodes qs (decodeCursor cursor) limit).mp h1
      have h3 : searchMatchesAfter nodes qs (decodeCursor cursor) = [] := by
        rcases List.take_eq_nil_iff.mp h2 with h | h
        · omega
        · exact h
      rw [h3]
      simp
    · simp only [Bool.not_eq_true] at hemp
      simp only [hemp] at hok
      simp only [Bool.false_eq_true, if_false] at hok
      injection hok with h
      subst h
      rw [buildPaginationResponse_hasMore]

/-- Witness store for C8/C9: one root and one match. -/
def smallNodes : List NodeRow :=
  [⟨"r", none, "top", 1⟩, ⟨"m1", some "r", "top > beta", 0⟩]

/-- Witness for C8 at a concrete call: one match, limit 1, no second
match, so `hasMore` is false. -/
theorem C8_hasMore_from_match_set_witness :
    (((searchHandler smallNodes (some "beta") 1 none).toOption.getD
        ⟨[], ⟨1, false, none, none⟩⟩).pagination.hasMore) =
      decide (1 < (searchMatchesAfter smallNodes "beta" (decodeCursor none)).length) :=
  C8_hasMore_from_match_set smallNodes "beta" 1 none _ (by decide) (by decide) (by rfl)

/-- Claim C9: an absent, empty or whitespace-only `q` yields the empty
success response `{data: [], pagination: {limit, hasMore: false}}` before
any cursor handling, and the result does not depend on the store at all
(no query is executed). -/
theorem C9_empty_query (nodes nodes2 : List NodeRow) (limit : Nat)
    (cursor : Option String) (q : Option String) (h : qEmpty q = true) :
    searchHandler nodes q limit cursor = .ok ⟨[], ⟨limit, false, none, none⟩⟩ ∧
      searchHandler nodes q limit cursor = searchHandler nodes2 q limit cursor := by
  have he : ∀ ns : List NodeRow, searchHandler ns q limit cursor =
      .ok ⟨[], ⟨limit, false, none, none⟩⟩ := by
    intro ns
    simp only [searchHandler]
    rw [if_pos h]
  exact ⟨he nodes, (he nodes).trans (he nodes2).symm⟩

/-- Witness for C9 with a whitespace-only query and two different stores. -/
theorem C9_empty_query_witness :
    searchHandler [] (some "   ") 10 none = .ok ⟨[], ⟨10, false, none, none⟩⟩ ∧
      searchHandler [] (some "   ") 10 none = searchHandler smallNodes (some "   ") 10 none :=
  C9_empty_query [] smallNodes 10 none (some "   ") (by decide)

/-- Claim C7, counterexample to the claim as stated: `decodeCursor` maps a
syntactically invalid token and an absent cursor to the same outcome
`null` — the decoder outcomes are not distinct. -/
theorem C7_counterexample :
    decodeCursor (some "###") = none ∧ decodeCursor none = none ∧
      decodeCursor (some "###") = decodeCursor none :=
  ⟨rfl, rfl, rfl⟩

/-- Claim C7 (amended): the decoder collapses invalid and absent to the
same `null`, but the endpoint distinguishes them by checking whether a
cursor string was supplied: a supplied non-empty token that fails to
decode is answered with the 400 client error, and an absent cursor is
not. -/
theorem C7_invalid_cursor_400 (nodes : List NodeRow) (hash : String) (limit : Nat)
    (tok : String) (htok : tok ≠ "") (hdec : decodeCursor (some tok) = none) :
    childrenHandler nodes hash limit (some tok) = .error "Invalid cursor format" ∧
      childrenHandler nodes hash limit none ≠ .error "Invalid cursor format" := by
  have h1 : cursorTruthy (some tok) = true := by simp [cursorTruthy, htok]
  constructor
  · simp [childrenHandler, h1, hdec]
  · simp [childrenHandler, cursorTruthy]

/-- Witness for C7 at the concrete invalid token `###`. -/
theorem C7_invalid_cursor_400_witness :
    childrenHandler smallNodes "r" 10 (some "###") = .error "Invalid cursor format" ∧
      childrenHandler smallNodes "r" 10 none ≠ .error "Invalid cursor format" :=
  C7_invalid_cursor_400 smallNodes "r" 10 "###" (by decide) (by rfl)

end TreeServer
